import Mathlib

/-!
Shallow embedding of `keyfinder.py` (class `Tonal_Fragment`), the
Krumhansl–Schmuckler key classifier.

Modelling conventions:
* Python floats are idealized as exact numbers: the chroma energy vector and
  the key profiles are rational vectors (`Fin 12 → ℚ`); the Pearson
  correlation coefficient, which involves a square root, lives in `ℝ`.
* `float('nan')` is modelled by `none` in `PyVal := Option ℚ` (a key
  correlation, once rounded to 3 decimals, is a rational or NaN).  Python's
  comparison semantics on NaN (every `<`/`>` comparison is `False`, `!=` is
  `True`) are reproduced by `pygt` / `pyne`.
* `np.corrcoef(x, y)[1, 0]` is modelled from its documented semantics by the
  Pearson formula, yielding NaN (`none`) when either input has zero variance.
* The chromagram computation (librosa) is out of scope; the embedding starts
  from the aggregated 12-entry chroma energy vector (`chroma_vals`).
-/

/-- Values stored in `key_dict`: a rounded correlation, or NaN (`none`). -/
abbrev PyVal := Option ℚ

/-- Python `a > b` on floats that may be NaN: any comparison with NaN is
`False`. -/
def pygt : PyVal → PyVal → Bool
  | some a, some b => decide (b < a)
  | _, _ => false

/-- Python `a != b` on floats that may be NaN: NaN is `!=` everything,
itself included. -/
def pyne : PyVal → PyVal → Bool
  | some a, some b => decide (a ≠ b)
  | _, _ => true

/-- Python `a * q` for a possibly-NaN `a` and an actual float `q`. -/
def pymul : PyVal → ℚ → PyVal
  | some a, q => some (a * q)
  | none, _ => none

/-- `Tonal_Fragment.PITCHES`. -/
def PITCHES : List String :=
  ["C", "C#", "D", "D#"] ++ ["E", "F", "F#", "G"] ++ ["G#", "A", "A#", "B"]

/-- `Tonal_Fragment.MAJ_PROFILE` (Krumhansl–Schmuckler major template). -/
def MAJ_PROFILE : Fin 12 → ℚ :=
  ![6.35, 2.23, 3.48, 2.33, 4.38, 4.09, 2.52, 5.19, 2.39, 3.66, 2.29, 2.88]

/-- `Tonal_Fragment.MIN_PROFILE` (Krumhansl–Schmuckler minor template). -/
def MIN_PROFILE : Fin 12 → ℚ :=
  ![6.33, 2.68, 3.52, 5.38, 2.60, 3.53, 2.54, 4.75, 3.98, 2.69, 3.34, 3.17]

/-- Arithmetic mean of a 12-entry vector (as in `np.corrcoef`). -/
def mean (x : Fin 12 → ℚ) : ℚ := (∑ i, x i) / 12

/-- Centered cross sum `∑ (x i - mean x) * (y i - mean y)`; the building
block of the Pearson coefficient.  `ssum x x` is (up to the positive factor
`n - 1`) the variance of `x`, so `ssum x x = 0` iff `x` is constant. -/
def ssum (x y : Fin 12 → ℚ) : ℚ := ∑ i, (x i - mean x) * (y i - mean y)

/-- Pearson correlation coefficient (the value of `np.corrcoef(x, y)[1, 0]`
in the non-degenerate case). -/
noncomputable def pearson (x y : Fin 12 → ℚ) : ℝ :=
  (ssum x y : ℝ) / Real.sqrt ((ssum x x : ℝ) * (ssum y y : ℝ))

/-- Model of `np.corrcoef(x, y)[1, 0]` from the documented numpy semantics:
NaN (`none`) when either input vector has zero variance, otherwise the
Pearson coefficient. -/
noncomputable def corrcoef (x y : Fin 12 → ℚ) : Option ℝ :=
  if ssum x x = 0 ∨ ssum y y = 0 then none else some (pearson x y)

/-- Python `round(z, 3)`: round to 3 decimal digits.  (Mathlib's `round` is
round-half-up; the half-integer boundary is immaterial here.) -/
noncomputable def round3 (z : ℝ) : ℚ := (round (1000 * z) : ℤ) / 1000

/-- Rounding of a possibly-NaN coefficient, `round(np.corrcoef(..)[1, 0], 3)`
(`round(nan, 3)` is NaN). -/
noncomputable def py_round3 (v : Option ℝ) : PyVal := v.map round3

/-- Line 62: `self.keyfreqs`, the dict from pitch names to chroma values,
as an insertion-ordered association list. -/
def keyfreqs (chroma : Fin 12 → ℚ) : List (String × ℚ) :=
  (List.finRange 12).map (fun i => (PITCHES.getD i.val "", chroma i))

/-- Line 83: `key_test`, the chroma rotated through the `keyfreqs` name
dictionary: entry `m` is `keyfreqs.get(PITCHES[(i + m) % 12])`.  The `.get`
never misses (proved below), so the `getD 0` default is never taken. -/
def key_test (chroma : Fin 12 → ℚ) (i : Fin 12) : Fin 12 → ℚ :=
  fun m => (List.lookup (PITCHES.getD ((i.val + m.val) % 12) "") (keyfreqs chroma)).getD 0

/-- Line 93: the candidate name `PITCHES[i] + ' major'`. -/
def majorName (i : Fin 12) : String := PITCHES.getD i.val "" ++ " major"

/-- Line 94: the candidate name `PITCHES[i] + ' minor'`. -/
def minorName (i : Fin 12) : String := PITCHES.getD i.val "" ++ " minor"

/-- Lines 76–99, `_compute_key_correlations`: the resulting `self.key_dict`
as an insertion-ordered association list — major candidates for roots 0..11
ascending, then minor candidates for roots 0..11 ascending, each value
`round(np.corrcoef(PROFILE, key_test)[1, 0], 3)`. -/
noncomputable def compute_key_correlations (chroma : Fin 12 → ℚ) :
    List (String × PyVal) :=
  (List.finRange 12).map
      (fun i => (majorName i, py_round3 (corrcoef MAJ_PROFILE (key_test chroma i)))) ++
    (List.finRange 12).map
      (fun i => (minorName i, py_round3 (corrcoef MIN_PROFILE (key_test chroma i))))

/-- One comparison step of Python's builtin `max`: the running maximum is
replaced only by a strictly greater item. -/
def pymaxStep (cur e : String × PyVal) : String × PyVal :=
  if pygt e.2 cur.2 then e else cur

/-- Line 68, `max(self.key_dict, key=self.key_dict.get)`: scan the items in
insertion order, keeping the running maximum; the first maximum wins ties.
(Python raises on an empty dict; `key_dict` always has 24 entries.) -/
def dict_max : List (String × PyVal) → String × PyVal
  | [] => ("", none)
  | h :: t => t.foldl pymaxStep h

/-- Lines 101–107, `_find_alternative_key`: the first entry, in insertion
order, with `corr > bestcorr * 0.9 and corr != bestcorr`; `none` when the
loop finishes without a `break`. -/
def find_alternative_key (kd : List (String × PyVal)) (bestcorr : PyVal) :
    Option (String × PyVal) :=
  kd.find? (fun e => pygt e.2 (pymul bestcorr (9 / 10)) && pyne e.2 bestcorr)

/-- The attributes of a `Tonal_Fragment` object relevant to classification. -/
structure Tonal_Fragment where
  key_dict : List (String × PyVal)
  key : String
  bestcorr : PyVal
  altkey : Option String
  altbestcorr : Option PyVal

/-- Lines 68–74 of `__init__`: derive `key`, `bestcorr`, `altkey`,
`altbestcorr` from an already-computed `key_dict`. -/
def mk_state (kd : List (String × PyVal)) : Tonal_Fragment :=
  let key := (dict_max kd).1
  let bestcorr := (List.lookup key kd).getD none
  let alt := find_alternative_key kd bestcorr
  { key_dict := kd, key := key, bestcorr := bestcorr,
    altkey := alt.map Prod.fst, altbestcorr := alt.map Prod.snd }

/-- The `__init__` pipeline from the aggregated chroma energy vector
onwards (lines 62–74). -/
noncomputable def Tonal_Fragment.init (chroma : Fin 12 → ℚ) : Tonal_Fragment :=
  mk_state (compute_key_correlations chroma)

/-- Membership of a character sequence in another (used for Python's
substring test `'major' in key`). -/
def containsSeq (nee : List Char) : List Char → Bool
  | [] => nee.isEmpty
  | c :: rest => nee.isPrefixOf (c :: rest) || containsSeq nee rest

/-- Python `sub in s` on strings: substring containment. -/
def strContains (s sub : String) : Bool := containsSeq sub.data s.data

/-- Python `s.split()[0]`: first whitespace-separated token (the only
whitespace in key names is `' '`). -/
def pySplitFirst (s : String) : String :=
  ⟨(s.data.dropWhile (fun c => c == ' ')).takeWhile (fun c => c != ' ')⟩

/-- Lines 109–138, `get_key_with_context`, in state-passing style: the
returned state is the input state since the method assigns no attribute. -/
def get_key_with_context (self : Tonal_Fragment) (prefer_minor : Bool)
    (threshold : ℚ) : (String × PyVal) × Tonal_Fragment :=
  let key := self.key
  let bestcorr := self.bestcorr
  if prefer_minor && strContains key "major" then
    let root := pySplitFirst key
    let idx := List.indexOf root PITCHES
    let relative_minor :=
      PITCHES.getD ((((idx : ℤ) - 3) % 12).toNat) "" ++ " minor"
    match List.lookup relative_minor self.key_dict with
    | some minor_corr =>
        if pygt minor_corr (pymul bestcorr threshold) then
          ((relative_minor, minor_corr), self)
        else ((key, bestcorr), self)
    | none => ((key, bestcorr), self)
  else ((key, bestcorr), self)

/-! ### Generic facts about the classifier scans -/

theorem pygt_none_right (a : PyVal) : pygt a none = false := by cases a <;> rfl

theorem pygt_none_left (b : PyVal) : pygt none b = false := by cases b <;> rfl

theorem pygt_irrefl (a : PyVal) : pygt a a = false := by
  cases a with
  | none => rfl
  | some q => simp [pygt]

theorem pygt_true_iff (a b : PyVal) :
    pygt a b = true ↔ ∃ x y, a = some x ∧ b = some y ∧ y < x := by
  cases a <;> cases b <;> simp [pygt]

theorem foldl_pymax_keep : ∀ (t : List (String × PyVal)) (h : String × PyVal),
    (∀ e ∈ t, pygt e.2 h.2 = false) → t.foldl pymaxStep h = h := by
  intro t
  induction t with
  | nil => intro h _; rfl
  | cons e t ih =>
      intro h H
      have he : pygt e.2 h.2 = false := H e (List.mem_cons_self _ _)
      have hstep : pymaxStep h e = h := by simp [pymaxStep, he]
      rw [List.foldl_cons, hstep]
      exact ih h (fun d hd => H d (List.mem_cons_of_mem _ hd))

theorem pymax_mem : ∀ (t : List (String × PyVal)) (h : String × PyVal),
    t.foldl pymaxStep h ∈ h :: t := by
  intro t
  induction t with
  | nil => intro h; simp
  | cons e t ih =>
      intro h
      rw [List.foldl_cons]
      rcases List.mem_cons.mp (ih (pymaxStep h e)) with h1 | h2
      · rw [h1]; unfold pymaxStep; split
        · exact List.mem_cons_of_mem _ (List.mem_cons_self _ _)
        · exact List.mem_cons_self _ _
      · exact List.mem_cons_of_mem _ (List.mem_cons_of_mem _ h2)

theorem pymax_dom : ∀ (t : List (String × PyVal)) (h d : String × PyVal),
    d ∈ h :: t → pygt d.2 (t.foldl pymaxStep h).2 = false := by
  intro t
  induction t with
  | nil =>
      intro h d hd
      have : d = h := by simpa using hd
      rw [this, List.foldl_nil]; exact pygt_irrefl _
  | cons e t ih =>
      intro h d hd
      rw [List.foldl_cons]
      by_cases hc : pygt e.2 h.2 = true
      · have hstep : pymaxStep h e = e := by simp [pymaxStep, hc]
        rw [hstep]
        rcases List.mem_cons.mp hd with hEq | hd'
        · rw [hEq]
          obtain ⟨x, y, hex, hhy, hyx⟩ := (pygt_true_iff _ _).mp hc
          have h1 : pygt e.2 (t.foldl pymaxStep e).2 = false :=
            ih e e (List.mem_cons_self _ _)
          cases hw : (t.foldl pymaxStep e).2 with
          | none => exact pygt_none_right _
          | some m =>
              rw [hex, hw] at h1
              rw [hhy]
              simp only [pygt, decide_eq_false_iff_not] at h1 ⊢
              intro hmy; exact h1 (lt_trans hmy hyx)
        · exact ih e d hd'
      · have hc' : pygt e.2 h.2 = false := by
          cases hx : pygt e.2 h.2
          · rfl
          · exact absurd hx hc
        have hstep : pymaxStep h e = h := by simp [pymaxStep, hc']
        rw [hstep]
        rcases List.mem_cons.mp hd with hEq | hd'
        · rw [hEq]; exact ih h h (List.mem_cons_self _ _)
        · rcases List.mem_cons.mp hd' with hEq2 | hd''
          · -- d = e
            rw [hEq2]
            have h2 : pygt h.2 (t.foldl pymaxStep h).2 = false :=
              ih h h (List.mem_cons_self _ _)
            cases he2 : e.2 with
            | none => exact pygt_none_left _
            | some b =>
                cases hh2 : h.2 with
                | none =>
                    have hkeep : t.foldl pymaxStep h = h := by
                      refine foldl_pymax_keep t h (fun x hx => ?_)
                      rw [hh2]; exact pygt_none_right _
                    rw [hkeep, hh2]; exact pygt_none_right _
                | some a =>
                    rw [he2, hh2] at hc'
                    cases hw : (t.foldl pymaxStep h).2 with
                    | none => exact pygt_none_right _
                    | some m =>
                        rw [hh2, hw] at h2
                        simp only [pygt, decide_eq_false_iff_not] at hc' h2 ⊢
                        intro hmb
                        exact hc' (lt_of_le_of_lt (le_of_not_lt h2) hmb)
          · exact ih h d (List.mem_cons_of_mem _ hd'')

theorem pymax_isSome (t : List (String × PyVal)) (h : String × PyVal)
    (hs : ∀ e ∈ h :: t, (e.2).isSome = true) :
    ((t.foldl pymaxStep h).2).isSome = true :=
  hs _ (pymax_mem t h)

theorem pymax_first : ∀ (t : List (String × PyVal)) (h : String × PyVal),
    (∀ e ∈ h :: t, (e.2).isSome = true) →
    (h :: t).find? (fun e => e.2 == (t.foldl pymaxStep h).2) =
      some (t.foldl pymaxStep h) := by
  intro t
  induction t with
  | nil =>
      intro h _
      simp [List.find?_cons]
  | cons e t ih =>
      intro h hs
      rw [List.foldl_cons]
      by_cases hc : pygt e.2 h.2 = true
      · have hstep : pymaxStep h e = e := by simp [pymaxStep, hc]
        rw [hstep]
        obtain ⟨x, y, hex, hhy, hyx⟩ := (pygt_true_iff _ _).mp hc
        have hs' : ∀ d ∈ e :: t, (d.2).isSome = true := fun d hd =>
          hs d (List.mem_cons_of_mem _ hd)
        have hw := pymax_isSome t e hs'
        obtain ⟨m, hm⟩ := Option.isSome_iff_exists.mp hw
        have hdom : pygt e.2 (t.foldl pymaxStep e).2 = false :=
          pymax_dom t e e (List.mem_cons_self _ _)
        rw [hex, hm] at hdom
        simp only [pygt, decide_eq_false_iff_not] at hdom
        have hxm : x ≤ m := le_of_not_lt hdom
        have hym : y < m := lt_of_lt_of_le hyx hxm
        have hpredh : (h.2 == (t.foldl pymaxStep e).2) = false := by
          rw [hhy, hm]
          simp [ne_of_lt hym]
        rw [List.find?_cons, hpredh]
        exact ih e hs'
      · have hc' : pygt e.2 h.2 = false := by
          cases hx : pygt e.2 h.2
          · rfl
          · exact absurd hx hc
        have hstep : pymaxStep h e = h := by simp [pymaxStep, hc']
        rw [hstep]
        have hs' : ∀ d ∈ h :: t, (d.2).isSome = true := by
          intro d hd
          rcases List.mem_cons.mp hd with hEq | hd'
          · exact hs d (by rw [hEq]; exact List.mem_cons_self _ _)
          · exact hs d (List.mem_cons_of_mem _ (List.mem_cons_of_mem _ hd'))
        have IH := ih h hs'
        by_cases hph : (h.2 == (t.foldl pymaxStep h).2) = true
        · rw [List.find?_cons, hph]
          rw [List.find?_cons, hph] at IH
          exact IH
        · have hph' : (h.2 == (t.foldl pymaxStep h).2) = false := by
            cases hx : (h.2 == (t.foldl pymaxStep h).2)
            · rfl
            · exact absurd hx hph
          rw [List.find?_cons, hph'] at IH
          -- h strictly below the max, and e ≤ h, so e is also below the max
          obtain ⟨a, ha⟩ := Option.isSome_iff_exists.mp (hs h (List.mem_cons_self _ _))
          obtain ⟨b, hb⟩ := Option.isSome_iff_exists.mp
            (hs e (List.mem_cons_of_mem _ (List.mem_cons_self _ _)))
          obtain ⟨m, hm⟩ := Option.isSome_iff_exists.mp (pymax_isSome t h hs')
          have hdomh : pygt h.2 (t.foldl pymaxStep h).2 = false :=
            pymax_dom t h h (List.mem_cons_self _ _)
          rw [ha, hm] at hdomh
          simp only [pygt, decide_eq_false_iff_not] at hdomh
          have ham : a ≤ m := le_of_not_lt hdomh
          have hane : a ≠ m := by
            rw [ha, hm] at hph'
            simpa using hph'
          have hba : b ≤ a := by
            rw [hb, ha] at hc'
            simp only [pygt, decide_eq_false_iff_not] at hc'
            exact le_of_not_lt hc'
          have hbm : b ≠ m := by
            intro hEq
            exact hane (le_antisymm ham (hEq ▸ hba))
          have hpe : (e.2 == (t.foldl pymaxStep h).2) = false := by
            rw [hb, hm]
            simpa using hbm
          rw [List.find?_cons, hph', List.find?_cons, hpe]
          exact IH

def listMax : List ℚ → ℚ
  | [] => 0
  | a :: t => t.foldl max a

theorem foldl_max_init_le : ∀ (t : List ℚ) (a : ℚ), a ≤ t.foldl max a := by
  intro t
  induction t with
  | nil => intro a; exact le_refl a
  | cons b t ih =>
      intro a
      exact le_trans (le_max_left a b) (ih (max a b))

theorem le_foldl_max : ∀ (t : List ℚ) (a x : ℚ), x ∈ a :: t → x ≤ t.foldl max a := by
  intro t
  induction t with
  | nil =>
      intro a x hx
      have hxa : x = a := by simpa using hx
      rw [hxa]; exact le_refl a
  | cons b t ih =>
      intro a x hx
      rw [List.foldl_cons]
      rcases List.mem_cons.mp hx with hEq | hx'
      · rw [hEq]
        exact le_trans (le_max_left a b) (foldl_max_init_le t (max a b))
      · rcases List.mem_cons.mp hx' with hEq2 | hx''
        · rw [hEq2]
          exact le_trans (le_max_right a b) (foldl_max_init_le t (max a b))
        · exact ih (max a b) x (List.mem_cons_of_mem _ hx'')

theorem foldl_max_mem : ∀ (t : List ℚ) (a : ℚ), t.foldl max a ∈ a :: t := by
  intro t
  induction t with
  | nil => intro a; simp
  | cons b t ih =>
      intro a
      rw [List.foldl_cons]
      rcases List.mem_cons.mp (ih (max a b)) with h1 | h2
      · rcases max_choice a b with hm | hm
        · rw [h1, hm]; exact List.mem_cons_self _ _
        · rw [h1, hm]
          exact List.mem_cons_of_mem _ (List.mem_cons_self _ _)
      · exact List.mem_cons_of_mem _ (List.mem_cons_of_mem _ h2)

theorem lookup_eq_of_mem_nodup :
    ∀ (l : List (String × PyVal)) (e : String × PyVal),
      (l.map Prod.fst).Nodup → e ∈ l → List.lookup e.1 l = some e.2 := by
  intro l
  induction l with
  | nil => intro e _ he; simp at he
  | cons f l ih =>
      intro e hnd he
      rw [List.map_cons] at hnd
      have hnd' := List.nodup_cons.mp hnd
      rcases List.mem_cons.mp he with hEq | he'
      · rw [hEq]
        simp [List.lookup]
      · have hne : (e.1 == f.1) = false := by
          have hnotin : f.1 ∉ l.map Prod.fst := hnd'.1
          have : e.1 ∈ l.map Prod.fst := List.mem_map_of_mem Prod.fst he'
          simp only [beq_eq_false_iff_ne, ne_eq]
          intro hEq
          exact hnotin (hEq ▸ this)
        rw [List.lookup_cons]
        rw [hne]
        exact ih e hnd'.2 he'

theorem find?_pred_congr :
    ∀ (l : List (String × PyVal)) (p q : (String × PyVal) → Bool),
      (∀ x ∈ l, p x = q x) → l.find? p = l.find? q := by
  intro l
  induction l with
  | nil => intro p q _; rfl
  | cons a l ih =>
      intro p q hpq
      rw [List.find?_cons, List.find?_cons, hpq a (List.mem_cons_self _ _)]
      cases q a
      · exact ih p q (fun x hx => hpq x (List.mem_cons_of_mem _ hx))
      · rfl

/-! ### Numeric facts about the correlation engine -/

theorem ssum_self_nonneg (x : Fin 12 → ℚ) : 0 ≤ ssum x x :=
  Finset.sum_nonneg (fun _ _ => mul_self_nonneg _)

theorem ssum_sq_le (x y : Fin 12 → ℚ) : ssum x y ^ 2 ≤ ssum x x * ssum y y := by
  have h := Finset.sum_mul_sq_le_sq_mul_sq Finset.univ
    (fun i => x i - mean x) (fun i => y i - mean y)
  simpa [ssum, pow_two] using h

theorem abs_pearson_le_one (x y : Fin 12 → ℚ) : |pearson x y| ≤ 1 := by
  by_cases hD : Real.sqrt ((ssum x x : ℝ) * (ssum y y : ℝ)) = 0
  · simp [pearson, hD]
  · have hDpos : 0 < Real.sqrt ((ssum x x : ℝ) * (ssum y y : ℝ)) :=
      lt_of_le_of_ne (Real.sqrt_nonneg _) (Ne.symm hD)
    rw [pearson, abs_div, abs_of_pos hDpos, div_le_one hDpos]
    have h1 : ((ssum x y : ℝ)) ^ 2 ≤ (ssum x x : ℝ) * (ssum y y : ℝ) := by
      have := ssum_sq_le x y
      exact_mod_cast this
    calc |((ssum x y : ℝ))| = Real.sqrt (((ssum x y : ℝ)) ^ 2) :=
          (Real.sqrt_sq_eq_abs _).symm
      _ ≤ Real.sqrt ((ssum x x : ℝ) * (ssum y y : ℝ)) := Real.sqrt_le_sqrt h1

theorem pearson_self (x : Fin 12 → ℚ) (hx : ssum x x ≠ 0) : pearson x x = 1 := by
  have hnn : (0 : ℝ) ≤ (ssum x x : ℝ) := by exact_mod_cast ssum_self_nonneg x
  have hne : ((ssum x x : ℝ)) ≠ 0 := by exact_mod_cast hx
  rw [pearson, Real.sqrt_mul_self hnn]
  exact div_self hne

theorem round_thousand : round ((1000 : ℝ)) = 1000 := by
  rw [show ((1000 : ℝ)) = ((1000 : ℤ) : ℝ) by norm_num, round_intCast]

theorem round3_le_one {z : ℝ} (hz : z ≤ 1) : round3 z ≤ 1 := by
  rw [round3]
  have h1 : round (1000 * z) ≤ 1000 := by
    calc round (1000 * z) ≤ round ((1000 : ℝ)) := by
          rw [round_eq, round_eq]
          exact Int.floor_le_floor (by linarith)
      _ = 1000 := round_thousand
  rw [div_le_one (by norm_num : (0 : ℚ) < 1000)]
  exact_mod_cast h1

theorem neg_one_le_round3 {z : ℝ} (hz : -1 ≤ z) : -1 ≤ round3 z := by
  rw [round3]
  have h1 : -1000 ≤ round (1000 * z) := by
    calc (-1000 : ℤ) = round ((-1000 : ℝ)) := by
          rw [show ((-1000 : ℝ)) = ((-1000 : ℤ) : ℝ) by norm_num, round_intCast]
      _ ≤ round (1000 * z) := by
          rw [round_eq, round_eq]
          exact Int.floor_le_floor (by linarith)
  rw [le_div_iff₀ (by norm_num : (0 : ℚ) < 1000)]
  exact_mod_cast h1

theorem round3_one : round3 1 = 1 := by
  rw [round3, mul_one, round_thousand]
  norm_num

/-! ### The rotation and the `keyfreqs` dictionary round-trip -/

/-- Spec §4.2: the rotated vector `rotated[m] = chroma[(r + m) mod 12]`.
This is the spec-side description; `key_test` is the code-side computation
through the `keyfreqs` name dictionary. -/
def specRotated (chroma : Fin 12 → ℚ) (r : Fin 12) : Fin 12 → ℚ :=
  fun m => chroma ⟨(r.val + m.val) % 12, Nat.mod_lt _ (by norm_num)⟩

theorem keyfreqs_lookup (chroma : Fin 12 → ℚ) (k : ℕ) (hk : k < 12) :
    List.lookup (PITCHES.getD k "") (keyfreqs chroma) = some (chroma ⟨k, hk⟩) := by
  interval_cases k <;> rfl

theorem key_test_eq (chroma : Fin 12 → ℚ) (i : Fin 12) :
    key_test chroma i = specRotated chroma i := by
  funext m
  have hlt : (i.val + m.val) % 12 < 12 := Nat.mod_lt _ (by norm_num)
  show (List.lookup (PITCHES.getD ((i.val + m.val) % 12) "") (keyfreqs chroma)).getD 0 =
    specRotated chroma i m
  rw [keyfreqs_lookup chroma _ hlt]
  rfl

def rotIdx (r : Fin 12) : Fin 12 → Fin 12 :=
  fun m => ⟨(r.val + m.val) % 12, Nat.mod_lt _ (by norm_num)⟩

theorem rotIdx_bijective (r : Fin 12) : Function.Bijective (rotIdx r) := by
  revert r; decide

theorem sum_rotIdx (r : Fin 12) (g : Fin 12 → ℚ) :
    ∑ m, g (rotIdx r m) = ∑ i, g i :=
  Fintype.sum_bijective (rotIdx r) (rotIdx_bijective r) _ _ (fun _ => rfl)

theorem mean_specRotated (chroma : Fin 12 → ℚ) (r : Fin 12) :
    mean (specRotated chroma r) = mean chroma := by
  rw [mean, mean]
  congr 1
  exact sum_rotIdx r chroma

theorem ssum_specRotated (chroma : Fin 12 → ℚ) (r : Fin 12) :
    ssum (specRotated chroma r) (specRotated chroma r) = ssum chroma chroma := by
  simp only [ssum, mean_specRotated]
  exact sum_rotIdx r (fun i => (chroma i - mean chroma) * (chroma i - mean chroma))

theorem ssum_MAJ_ne : ssum MAJ_PROFILE MAJ_PROFILE ≠ 0 := by
  simp only [ssum, mean, MAJ_PROFILE, Fin.sum_univ_succ, Fin.sum_univ_zero,
    Matrix.cons_val_zero, Matrix.cons_val_succ]
  norm_num

theorem ssum_MIN_ne : ssum MIN_PROFILE MIN_PROFILE ≠ 0 := by
  simp only [ssum, mean, MIN_PROFILE, Fin.sum_univ_succ, Fin.sum_univ_zero,
    Matrix.cons_val_zero, Matrix.cons_val_succ]
  norm_num

/-! ### Structure of `key_dict` -/

/-- The fixed enumeration order of the 24 candidates (spec §3
`CandidateList`): major candidates for roots 0..11 ascending, then minor
candidates for roots 0..11 ascending. -/
def keyNames : List String :=
  ["C major", "C# major", "D major", "D# major", "E major", "F major",
   "F# major", "G major", "G# major", "A major", "A# major", "B major",
   "C minor", "C# minor", "D minor", "D# minor", "E minor", "F minor",
   "F# minor", "G minor", "G# minor", "A minor", "A# minor", "B minor"]

theorem kd_keys (chroma : Fin 12 → ℚ) :
    (compute_key_correlations chroma).map Prod.fst = keyNames := by
  rfl

theorem keyNames_nodup : keyNames.Nodup := by decide

theorem kd_length (chroma : Fin 12 → ℚ) :
    (compute_key_correlations chroma).length = 24 := by
  have h := congrArg List.length (kd_keys chroma)
  simpa using h

theorem kd_shape (chroma : Fin 12 → ℚ) (e : String × PyVal)
    (he : e ∈ compute_key_correlations chroma) :
    (∃ i : Fin 12, e = (majorName i, py_round3 (corrcoef MAJ_PROFILE (key_test chroma i)))) ∨
    (∃ i : Fin 12, e = (minorName i, py_round3 (corrcoef MIN_PROFILE (key_test chroma i)))) := by
  rw [compute_key_correlations] at he
  rcases List.mem_append.mp he with h | h
  · left
    obtain ⟨i, _, hi⟩ := List.mem_map.mp h
    exact ⟨i, hi.symm⟩
  · right
    obtain ⟨i, _, hi⟩ := List.mem_map.mp h
    exact ⟨i, hi.symm⟩

/-- Every `key_dict` value is NaN or a 3-decimal rounding of a Pearson
coefficient of absolute value at most 1. -/
theorem kd_val_shape (chroma : Fin 12 → ℚ) (e : String × PyVal)
    (he : e ∈ compute_key_correlations chroma) :
    e.2 = none ∨ ∃ z : ℝ, |z| ≤ 1 ∧ e.2 = some (round3 z) := by
  rcases kd_shape chroma e he with ⟨i, hi⟩ | ⟨i, hi⟩
  · rw [hi]
    by_cases hdeg : ssum MAJ_PROFILE MAJ_PROFILE = 0 ∨
        ssum (key_test chroma i) (key_test chroma i) = 0
    · left; simp [corrcoef, py_round3, hdeg]
    · right
      refine ⟨pearson MAJ_PROFILE (key_test chroma i), abs_pearson_le_one _ _, ?_⟩
      simp [corrcoef, py_round3, hdeg]
  · rw [hi]
    by_cases hdeg : ssum MIN_PROFILE MIN_PROFILE = 0 ∨
        ssum (key_test chroma i) (key_test chroma i) = 0
    · left; simp [corrcoef, py_round3, hdeg]
    · right
      refine ⟨pearson MIN_PROFILE (key_test chroma i), abs_pearson_le_one _ _, ?_⟩
      simp [corrcoef, py_round3, hdeg]

/-- In the non-degenerate case every `key_dict` value is an actual rounded
coefficient. -/
theorem kd_val_some (chroma : Fin 12 → ℚ) (hch : ssum chroma chroma ≠ 0)
    (e : String × PyVal) (he : e ∈ compute_key_correlations chroma) :
    ∃ z : ℝ, |z| ≤ 1 ∧ e.2 = some (round3 z) := by
  have hkt : ∀ i : Fin 12, ssum (key_test chroma i) (key_test chroma i) ≠ 0 := by
    intro i
    rw [key_test_eq, ssum_specRotated]
    exact hch
  rcases kd_shape chroma e he with ⟨i, hi⟩ | ⟨i, hi⟩
  · rw [hi]
    refine ⟨pearson MAJ_PROFILE (key_test chroma i), abs_pearson_le_one _ _, ?_⟩
    have hdeg : ¬(ssum MAJ_PROFILE MAJ_PROFILE = 0 ∨
        ssum (key_test chroma i) (key_test chroma i) = 0) := by
      push_neg
      exact ⟨ssum_MAJ_ne, hkt i⟩
    simp [corrcoef, py_round3, hdeg]
  · rw [hi]
    refine ⟨pearson MIN_PROFILE (key_test chroma i), abs_pearson_le_one _ _, ?_⟩
    have hdeg : ¬(ssum MIN_PROFILE MIN_PROFILE = 0 ∨
        ssum (key_test chroma i) (key_test chroma i) = 0) := by
      push_neg
      exact ⟨ssum_MIN_ne, hkt i⟩
    simp [corrcoef, py_round3, hdeg]

theorem bestcorr_eq_winner (kd : List (String × PyVal))
    (hnd : (kd.map Prod.fst).Nodup) :
    (mk_state kd).bestcorr = (dict_max kd).2 := by
  cases kd with
  | nil => rfl
  | cons h t =>
      show (List.lookup (t.foldl pymaxStep h).1 (h :: t)).getD none =
        (t.foldl pymaxStep h).2
      rw [lookup_eq_of_mem_nodup _ _ hnd (pymax_mem t h)]
      rfl

/-! ### Claim theorems -/

/-- C8: `get_key_with_context` never mutates the stored estimate: for every
state and every choice of `prefer_minor` and `threshold`, the returned state
is the input state, so the stored primary key, its correlation, the alternate
key, its correlation and the candidate dictionary are unchanged. -/
theorem get_key_with_context_pure (s : Tonal_Fragment) (prefer_minor : Bool)
    (threshold : ℚ) :
    (get_key_with_context s prefer_minor threshold).2 = s ∧
    ((get_key_with_context s prefer_minor threshold).2.key_dict = s.key_dict ∧
     (get_key_with_context s prefer_minor threshold).2.key = s.key ∧
     (get_key_with_context s prefer_minor threshold).2.bestcorr = s.bestcorr ∧
     (get_key_with_context s prefer_minor threshold).2.altkey = s.altkey ∧
     (get_key_with_context s prefer_minor threshold).2.altbestcorr = s.altbestcorr) := by
  have h2 : (get_key_with_context s prefer_minor threshold).2 = s := by
    simp only [get_key_with_context]
    split
    · split
      · split <;> rfl
      · rfl
    · rfl
  exact ⟨h2, by rw [h2], by rw [h2], by rw [h2], by rw [h2], by rw [h2]⟩

/-- The 12 minor key names: the keys whose stored mode is minor. -/
def minorNames : List String :=
  ["C minor", "C# minor", "D minor", "D# minor", "E minor", "F minor",
   "F# minor", "G minor", "G# minor", "A minor", "A# minor", "B minor"]

/-- C10: with `prefer_minor=False` the call returns exactly the stored
primary key and its correlation, whatever the threshold; and the same
identity holds with `prefer_minor=True` whenever the stored primary key's
mode is minor. -/
theorem get_key_with_context_id (s : Tonal_Fragment) (threshold : ℚ) :
    (get_key_with_context s false threshold).1 = (s.key, s.bestcorr) ∧
    (s.key ∈ minorNames →
      (get_key_with_context s true threshold).1 = (s.key, s.bestcorr)) := by
  constructor
  · rfl
  · intro hmem
    have hnc : strContains s.key "major" = false := by
      simp only [minorNames, List.mem_cons, List.not_mem_nil, or_false] at hmem
      rcases hmem with h|h|h|h|h|h|h|h|h|h|h|h <;> rw [h] <;> rfl
    rw [get_key_with_context]
    simp [hnc]

/-- Witness for C10 at a concrete minor-key state. -/
theorem get_key_with_context_id_witness :
    ("C minor" ∈ minorNames) ∧
    (get_key_with_context ⟨[("C minor", some 1)], "C minor", some 1, none, none⟩
        false (9 / 10)).1 = ("C minor", some 1) ∧
    (get_key_with_context ⟨[("C minor", some 1)], "C minor", some 1, none, none⟩
        true (9 / 10)).1 = ("C minor", some 1) :=
  ⟨by decide,
   (get_key_with_context_id ⟨[("C minor", some 1)], "C minor", some 1, none, none⟩ (9 / 10)).1,
   (get_key_with_context_id ⟨[("C minor", some 1)], "C minor", some 1, none, none⟩ (9 / 10)).2
     (by decide)⟩

theorem pygt_le_one (v : PyVal)
    (hv : v = none ∨ ∃ z : ℝ, |z| ≤ 1 ∧ v = some (round3 z)) :
    pygt v (some 1) = false := by
  rcases hv with rfl | ⟨z, hz, rfl⟩
  · exact pygt_none_left _
  · have h1 : round3 z ≤ 1 := round3_le_one (le_of_abs_le hz)
    simp only [pygt, decide_eq_false_iff_not]
    exact not_lt.mpr h1

theorem kd_zero_vals (e : String × PyVal)
    (he : e ∈ compute_key_correlations (fun _ => 0)) : e.2 = none := by
  have hz : ∀ i : Fin 12,
      ssum (key_test (fun _ => 0) i) (key_test (fun _ => 0) i) = 0 := by
    intro i
    rw [key_test_eq, ssum_specRotated]
    simp [ssum, mean]
  rcases kd_shape _ e he with ⟨i, hi⟩ | ⟨i, hi⟩ <;>
    rw [hi] <;> simp [corrcoef, py_round3, hz i]

/-- C1 (the code's actual behaviour at the failing input): on the all-zero
chroma vector every one of the 24 correlations is NaN, and the classifier
nevertheless stores the ordinary key label "C major" (the first dict key,
kept by `max` because no NaN comparison succeeds) with `bestcorr = NaN`;
no distinguishable undefined-key result or explicit error is produced. -/
theorem zero_chroma_selects_c_major_label :
    (Tonal_Fragment.init (fun _ => 0)).key = "C major" ∧
    (Tonal_Fragment.init (fun _ => 0)).bestcorr = none ∧
    (Tonal_Fragment.init (fun _ => 0)).key_dict.all (fun e => e.2 == none) = true := by
  cases hkd : compute_key_correlations (fun _ => 0) with
  | nil =>
      have h24 := kd_length (fun _ => 0)
      rw [hkd] at h24
      simp at h24
  | cons h t =>
      have hvals : ∀ e ∈ h :: t, e.2 = none := by
        intro e he
        exact kd_zero_vals e (by rw [hkd]; exact he)
      have hwin : t.foldl pymaxStep h = h := by
        refine foldl_pymax_keep t h (fun e he => ?_)
        rw [hvals e (List.mem_cons_of_mem _ he)]
        exact pygt_none_left _
      have hname : h.1 = "C major" := by
        have hk := kd_keys (fun _ => 0)
        rw [hkd] at hk
        have hk2 : h.1 :: List.map Prod.fst t = keyNames := by simpa using hk
        have hh := congrArg List.head? hk2
        simpa [keyNames] using hh
      refine ⟨?_, ?_, ?_⟩
      · show (dict_max (compute_key_correlations (fun _ => 0))).1 = "C major"
        rw [hkd]
        show (t.foldl pymaxStep h).1 = "C major"
        rw [hwin, hname]
      · show (List.lookup (dict_max (compute_key_correlations (fun _ => 0))).1
            (compute_key_correlations (fun _ => 0))).getD none = none
        rw [hkd]
        show (List.lookup (t.foldl pymaxStep h).1 (h :: t)).getD none = none
        rw [hwin]
        have : List.lookup h.1 (h :: t) = some h.2 := by
          rw [List.lookup_cons]
          simp
        rw [this, hvals h (List.mem_cons_self _ _)]
        rfl
      · show (compute_key_correlations (fun _ => 0)).all (fun e => e.2 == none) = true
        rw [List.all_eq_true]
        intro e he
        rw [kd_zero_vals e he]
        rfl

theorem key_test_zero_rot (chroma : Fin 12 → ℚ) :
    key_test chroma 0 = chroma := by
  rw [key_test_eq]
  funext m
  show chroma ⟨((0 : Fin 12).val + m.val) % 12, _⟩ = chroma m
  congr 1
  apply Fin.ext
  show ((0 : Fin 12).val + m.val) % 12 = m.val
  simp [Nat.mod_eq_of_lt m.isLt]

theorem head_val_MAJ :
    (compute_key_correlations MAJ_PROFILE).head? = some ("C major", some 1) := by
  have hhead : (compute_key_correlations MAJ_PROFILE).head? =
      some ("C major", py_round3 (corrcoef MAJ_PROFILE (key_test MAJ_PROFILE 0))) := rfl
  rw [hhead, key_test_zero_rot]
  have hdeg : ¬(ssum MAJ_PROFILE MAJ_PROFILE = 0 ∨ ssum MAJ_PROFILE MAJ_PROFILE = 0) := by
    push_neg
    exact ⟨ssum_MAJ_ne, ssum_MAJ_ne⟩
  simp only [corrcoef, hdeg, if_false, py_round3, Option.map_some']
  rw [pearson_self MAJ_PROFILE ssum_MAJ_ne, round3_one]

theorem init_MAJ_props :
    (Tonal_Fragment.init MAJ_PROFILE).key = "C major" ∧
    (Tonal_Fragment.init MAJ_PROFILE).bestcorr = some 1 := by
  cases hkd : compute_key_correlations MAJ_PROFILE with
  | nil =>
      have h24 := kd_length MAJ_PROFILE
      rw [hkd] at h24
      simp at h24
  | cons h t =>
      have hh : h = ("C major", some 1) := by
        have h1 := head_val_MAJ
        rw [hkd] at h1
        simpa using h1
      have hwin : t.foldl pymaxStep h = h := by
        refine foldl_pymax_keep t h (fun e he => ?_)
        rw [hh]
        exact pygt_le_one e.2
          (kd_val_shape MAJ_PROFILE e (by rw [hkd]; exact List.mem_cons_of_mem _ he))
      refine ⟨?_, ?_⟩
      · show (dict_max (compute_key_correlations MAJ_PROFILE)).1 = "C major"
        rw [hkd]
        show (t.foldl pymaxStep h).1 = "C major"
        rw [hwin, hh]
      · show (List.lookup (dict_max (compute_key_correlations MAJ_PROFILE)).1
            (compute_key_correlations MAJ_PROFILE)).getD none = some 1
        rw [hkd]
        show (List.lookup (t.foldl pymaxStep h).1 (h :: t)).getD none = some 1
        rw [hwin]
        have : List.lookup h.1 (h :: t) = some h.2 := by
          rw [List.lookup_cons]
          simp
        rw [this, hh]
        rfl

/-- C5 (golden test): when the aggregated chroma energy vector is exactly the
MAJOR template aligned at root C, the primary key is "C major" and its stored
correlation is 1.0, well within the ±0.001 rounding tolerance. -/
theorem golden_c_major :
    (Tonal_Fragment.init MAJ_PROFILE).key = "C major" ∧
    ∃ c : ℚ, (Tonal_Fragment.init MAJ_PROFILE).bestcorr = some c ∧
      |c - 1| ≤ 1 / 1000 :=
  ⟨init_MAJ_props.1, 1, init_MAJ_props.2, by norm_num⟩

/-- C6: for every chroma vector and root, the engine correlates the rotated
vector `rotated[m] = chroma[(r + m) mod 12]` (the code's `key_test`, built
through the `keyfreqs` name dictionary, equals the spec's rotation) against
the fixed MAJOR and MINOR templates, and the candidate stored under the
major/minor name of root `r` is the 3-decimal rounding of that coefficient. -/
theorem rotation_and_rounding (chroma : Fin 12 → ℚ) (r : Fin 12) :
    key_test chroma r = specRotated chroma r ∧
    List.lookup (majorName r) (Tonal_Fragment.init chroma).key_dict =
      some (py_round3 (corrcoef MAJ_PROFILE (specRotated chroma r))) ∧
    List.lookup (minorName r) (Tonal_Fragment.init chroma).key_dict =
      some (py_round3 (corrcoef MIN_PROFILE (specRotated chroma r))) := by
  have hnd : ((compute_key_correlations chroma).map Prod.fst).Nodup := by
    rw [kd_keys]
    exact keyNames_nodup
  refine ⟨key_test_eq chroma r, ?_, ?_⟩
  · have hmem : (majorName r, py_round3 (corrcoef MAJ_PROFILE (key_test chroma r))) ∈
        compute_key_correlations chroma := by
      rw [compute_key_correlations]
      exact List.mem_append_left _ (List.mem_map.mpr ⟨r, List.mem_finRange r, rfl⟩)
    have h2 := lookup_eq_of_mem_nodup _ _ hnd hmem
    simp only at h2
    rw [key_test_eq] at h2
    exact h2
  · have hmem : (minorName r, py_round3 (corrcoef MIN_PROFILE (key_test chroma r))) ∈
        compute_key_correlations chroma := by
      rw [compute_key_correlations]
      exact List.mem_append_right _ (List.mem_map.mpr ⟨r, List.mem_finRange r, rfl⟩)
    have h2 := lookup_eq_of_mem_nodup _ _ hnd hmem
    simp only at h2
    rw [key_test_eq] at h2
    exact h2

/-- C7: for a valid chroma vector (12 non-negative entries, not degenerate),
each of the 24 candidate correlations is an actual value in [-1, 1] (after
the 3-decimal rounding). -/
theorem correlations_in_unit_interval (chroma : Fin 12 → ℚ)
    (hpos : ∀ i, 0 ≤ chroma i) (hvar : ssum chroma chroma ≠ 0) :
    ∀ e ∈ (Tonal_Fragment.init chroma).key_dict,
      ∃ c : ℚ, e.2 = some c ∧ -1 ≤ c ∧ c ≤ 1 := by
  intro e he
  obtain ⟨z, hz, hv⟩ := kd_val_some chroma hvar e he
  exact ⟨round3 z, hv, neg_one_le_round3 (neg_le_of_abs_le hz),
    round3_le_one (le_of_abs_le hz)⟩

/-- A concrete non-degenerate chroma vector used by the witnesses. -/
def oneHotChroma : Fin 12 → ℚ := ![1, 0, 0, 0, 0, 0, 0, 0, 0, 0, 0, 0]

theorem oneHotChroma_nonneg : ∀ i, 0 ≤ oneHotChroma i := by decide

theorem oneHotChroma_var : ssum oneHotChroma oneHotChroma ≠ 0 := by
  simp only [ssum, mean, oneHotChroma, Fin.sum_univ_succ, Fin.sum_univ_zero,
    Matrix.cons_val_zero, Matrix.cons_val_succ]
  norm_num

/-- Witness for C7 at a concrete valid chroma vector. -/
theorem correlations_in_unit_interval_witness :
    (∀ i, 0 ≤ oneHotChroma i) ∧ ssum oneHotChroma oneHotChroma ≠ 0 ∧
    (∀ e ∈ (Tonal_Fragment.init oneHotChroma).key_dict,
      ∃ c : ℚ, e.2 = some c ∧ -1 ≤ c ∧ c ≤ 1) :=
  ⟨oneHotChroma_nonneg, oneHotChroma_var,
   correlations_in_unit_interval oneHotChroma oneHotChroma_nonneg oneHotChroma_var⟩

/-- Spec-side: the candidate correlations in enumeration order. -/
def candidateVals (kd : List (String × PyVal)) : List ℚ := kd.filterMap Prod.snd

/-- C2: in the non-degenerate case the stored primary (key, bestcorr) is the
first candidate, in the fixed enumeration order (majors 0..11 then minors
0..11, as witnessed by the stored key names), whose correlation equals the
maximal correlation — so on exact ties the earlier candidate wins. -/
theorem primary_is_first_argmax (chroma : Fin 12 → ℚ)
    (hvar : ssum chroma chroma ≠ 0) :
    (compute_key_correlations chroma).map Prod.fst = keyNames ∧
    (compute_key_correlations chroma).find?
        (fun e => e.2 == some (listMax (candidateVals (compute_key_correlations chroma)))) =
      some ((Tonal_Fragment.init chroma).key, (Tonal_Fragment.init chroma).bestcorr) := by
  refine ⟨kd_keys chroma, ?_⟩
  have hnd : ((compute_key_correlations chroma).map Prod.fst).Nodup := by
    rw [kd_keys]; exact keyNames_nodup
  have hbc := bestcorr_eq_winner (compute_key_correlations chroma) hnd
  cases hkd : compute_key_correlations chroma with
  | nil =>
      have h24 := kd_length chroma
      rw [hkd] at h24
      simp at h24
  | cons h t =>
      have hs : ∀ e ∈ h :: t, (e.2).isSome = true := by
        intro e he
        obtain ⟨z, _, hv⟩ := kd_val_some chroma hvar e (by rw [hkd]; exact he)
        rw [hv]; rfl
      -- the winner of the scan
      obtain ⟨mw, hmw⟩ := Option.isSome_iff_exists.mp (pymax_isSome t h hs)
      -- the head value, to put candidateVals in cons form
      obtain ⟨v0, hv0⟩ := Option.isSome_iff_exists.mp (hs h (List.mem_cons_self _ _))
      have hcv : candidateVals (h :: t) = v0 :: candidateVals t := by
        simp [candidateVals, List.filterMap_cons, hv0]
      -- the winner's value is the maximal correlation
      have hmax : mw = listMax (candidateVals (h :: t)) := by
        have hMdef : listMax (candidateVals (h :: t)) =
            (candidateVals t).foldl max v0 := by rw [hcv]; rfl
        have hle : mw ≤ listMax (candidateVals (h :: t)) := by
          rw [hMdef]
          refine le_foldl_max _ _ _ ?_
          rw [← hcv]
          exact List.mem_filterMap.mpr ⟨t.foldl pymaxStep h, pymax_mem t h, hmw⟩
        have hge : listMax (candidateVals (h :: t)) ≤ mw := by
          have hMmem : listMax (candidateVals (h :: t)) ∈ candidateVals (h :: t) := by
            rw [hMdef, hcv]
            exact foldl_max_mem _ _
          obtain ⟨e, he, hev⟩ := List.mem_filterMap.mp hMmem
          have hdom := pymax_dom t h e he
          rw [hev, hmw] at hdom
          simp only [pygt, decide_eq_false_iff_not] at hdom
          exact le_of_not_lt hdom
        exact le_antisymm hle hge
      have hfind := pymax_first t h hs
      have hpred : (fun e : String × PyVal =>
            e.2 == some (listMax (candidateVals (h :: t)))) =
          (fun e : String × PyVal => e.2 == (t.foldl pymaxStep h).2) := by
        funext e
        rw [hmw, ← hmax]
      rw [hpred, hfind]
      -- identify the winner with the stored (key, bestcorr)
      have hkey : (Tonal_Fragment.init chroma).key = (t.foldl pymaxStep h).1 := by
        show (dict_max (compute_key_correlations chroma)).1 = _
        rw [hkd]
        rfl
      have hbc2 : (Tonal_Fragment.init chroma).bestcorr = (t.foldl pymaxStep h).2 := by
        rw [show (Tonal_Fragment.init chroma).bestcorr =
              (mk_state (compute_key_correlations chroma)).bestcorr from rfl, hbc, hkd]
        rfl
      rw [hkey, hbc2]

/-- Witness for C2 at a concrete non-degenerate chroma vector. -/
theorem primary_is_first_argmax_witness :
    ssum oneHotChroma oneHotChroma ≠ 0 ∧
    ((compute_key_correlations oneHotChroma).map Prod.fst = keyNames ∧
     (compute_key_correlations oneHotChroma).find?
        (fun e => e.2 ==
          some (listMax (candidateVals (compute_key_correlations oneHotChroma)))) =
      some ((Tonal_Fragment.init oneHotChroma).key,
        (Tonal_Fragment.init oneHotChroma).bestcorr)) :=
  ⟨oneHotChroma_var, primary_is_first_argmax oneHotChroma oneHotChroma_var⟩

/-- C3: the reported alternate is exactly the first candidate, scanning the
whole dictionary from "C major" in enumeration order, whose correlation is
strictly greater than `bestcorr * 0.9` and not equal to `bestcorr`; when no
candidate qualifies — in particular when every non-primary correlation is at
most `0.9 * bestcorr` — both `altkey` and `altbestcorr` stay `None`. -/
theorem alternate_first_qualifying (chroma : Fin 12 → ℚ)
    (hvar : ssum chroma chroma ≠ 0) :
    ∃ b : ℚ, (Tonal_Fragment.init chroma).bestcorr = some b ∧
      ((Tonal_Fragment.init chroma).altkey, (Tonal_Fragment.init chroma).altbestcorr) =
        (match (compute_key_correlations chroma).find?
            (fun e => match e.2 with
              | some c => decide (b * (9 / 10) < c ∧ c ≠ b)
              | none => false) with
         | some e => (some e.1, some e.2)
         | none => (none, none)) ∧
      ((∀ e ∈ compute_key_correlations chroma, ∀ c : ℚ, e.2 = some c →
          c = b ∨ c ≤ b * (9 / 10)) →
        (Tonal_Fragment.init chroma).altkey = none ∧
        (Tonal_Fragment.init chroma).altbestcorr = none) := by
  have hnd : ((compute_key_correlations chroma).map Prod.fst).Nodup := by
    rw [kd_keys]; exact keyNames_nodup
  have hbc := bestcorr_eq_winner (compute_key_correlations chroma) hnd
  have hsome : ((dict_max (compute_key_correlations chroma)).2).isSome = true := by
    cases hkd : compute_key_correlations chroma with
    | nil =>
        have h24 := kd_length chroma
        rw [hkd] at h24
        simp at h24
    | cons h t =>
        refine pymax_isSome t h ?_
        intro e he
        obtain ⟨z, _, hv⟩ := kd_val_some chroma hvar e (by rw [hkd]; exact he)
        rw [hv]; rfl
  obtain ⟨b, hb⟩ := Option.isSome_iff_exists.mp hsome
  have hbcb : (Tonal_Fragment.init chroma).bestcorr = some b := by
    rw [show (Tonal_Fragment.init chroma).bestcorr =
          (mk_state (compute_key_correlations chroma)).bestcorr from rfl, hbc, hb]
  refine ⟨b, hbcb, ?_, ?_⟩
  · -- the stored alternate is the find? of the spec predicate
    have halt : (Tonal_Fragment.init chroma).altkey =
        (find_alternative_key (compute_key_correlations chroma)
          ((Tonal_Fragment.init chroma).bestcorr)).map Prod.fst := rfl
    have halt2 : (Tonal_Fragment.init chroma).altbestcorr =
        (find_alternative_key (compute_key_correlations chroma)
          ((Tonal_Fragment.init chroma).bestcorr)).map Prod.snd := rfl
    have hpred : (compute_key_correlations chroma).find?
          (fun e => pygt e.2 (pymul (some b) (9 / 10)) && pyne e.2 (some b)) =
        (compute_key_correlations chroma).find?
          (fun e => match e.2 with
            | some c => decide (b * (9 / 10) < c ∧ c ≠ b)
            | none => false) := by
      refine find?_pred_congr _ _ _ (fun e _ => ?_)
      cases e.2 with
      | none => rfl
      | some c =>
          show (decide (b * (9 / 10) < c) && decide (c ≠ b)) =
            decide (b * (9 / 10) < c ∧ c ≠ b)
          by_cases h1 : b * (9 / 10) < c <;> by_cases h2 : c ≠ b <;>
            simp [h1, h2]
    rw [halt, halt2, hbcb, find_alternative_key, hpred]
    cases (compute_key_correlations chroma).find?
        (fun e => match e.2 with
          | some c => decide (b * (9 / 10) < c ∧ c ≠ b)
          | none => false) with
    | none => rfl
    | some e => rfl
  · -- nothing qualifies, so no alternate is stored
    intro hno
    have halt : (Tonal_Fragment.init chroma).altkey =
        (find_alternative_key (compute_key_correlations chroma)
          ((Tonal_Fragment.init chroma).bestcorr)).map Prod.fst := rfl
    have halt2 : (Tonal_Fragment.init chroma).altbestcorr =
        (find_alternative_key (compute_key_correlations chroma)
          ((Tonal_Fragment.init chroma).bestcorr)).map Prod.snd := rfl
    have hnone : find_alternative_key (compute_key_correlations chroma)
        ((Tonal_Fragment.init chroma).bestcorr) = none := by
      rw [hbcb, find_alternative_key]
      rw [List.find?_eq_none]
      intro e he
      cases hev : e.2 with
      | none => simp [pygt]
      | some c =>
          rcases hno e he c hev with hEq | hle
          · simp [pyne, hEq]
          · simp only [pymul, pygt, pyne, Bool.and_eq_true, decide_eq_true_eq, not_and]
            intro hlt
            exact absurd hlt (not_lt.mpr hle)
    rw [halt, halt2, hnone]
    exact ⟨rfl, rfl⟩

/-- Witness for C3 at a concrete non-degenerate chroma vector. -/
theorem alternate_first_qualifying_witness :
    ssum oneHotChroma oneHotChroma ≠ 0 ∧
    (∃ b : ℚ, (Tonal_Fragment.init oneHotChroma).bestcorr = some b ∧
      ((Tonal_Fragment.init oneHotChroma).altkey,
        (Tonal_Fragment.init oneHotChroma).altbestcorr) =
        (match (compute_key_correlations oneHotChroma).find?
            (fun e => match e.2 with
              | some c => decide (b * (9 / 10) < c ∧ c ≠ b)
              | none => false) with
         | some e => (some e.1, some e.2)
         | none => (none, none)) ∧
      ((∀ e ∈ compute_key_correlations oneHotChroma, ∀ c : ℚ, e.2 = some c →
          c = b ∨ c ≤ b * (9 / 10)) →
        (Tonal_Fragment.init oneHotChroma).altkey = none ∧
        (Tonal_Fragment.init oneHotChroma).altbestcorr = none)) :=
  ⟨oneHotChroma_var, alternate_first_qualifying oneHotChroma oneHotChroma_var⟩

/-- C9: whenever an alternate is reported its correlation is strictly
between `0.9 * bestcorr` and `bestcorr`; consequently a zero or negative
primary correlation never yields an alternate.  Stated for any candidate
dictionary with distinct names (which every chroma input produces). -/
theorem alternate_strictly_between (kd : List (String × PyVal))
    (hnd : (kd.map Prod.fst).Nodup) :
    ((mk_state kd).altkey.isSome = true →
      ∃ b c : ℚ, (mk_state kd).bestcorr = some b ∧
        (mk_state kd).altbestcorr = some (some c) ∧
        b * (9 / 10) < c ∧ c < b) ∧
    (∀ b : ℚ, (mk_state kd).bestcorr = some b → b ≤ 0 →
      (mk_state kd).altkey = none ∧ (mk_state kd).altbestcorr = none) := by
  have hbc := bestcorr_eq_winner kd hnd
  have halt : (mk_state kd).altkey =
      (find_alternative_key kd ((mk_state kd).bestcorr)).map Prod.fst := rfl
  have halt2 : (mk_state kd).altbestcorr =
      (find_alternative_key kd ((mk_state kd).bestcorr)).map Prod.snd := rfl
  have hmain : ∀ e, find_alternative_key kd ((mk_state kd).bestcorr) = some e →
      ∃ b c : ℚ, (mk_state kd).bestcorr = some b ∧ e.2 = some c ∧
        b * (9 / 10) < c ∧ c < b := by
    intro e hfind
    have hpred := List.find?_some hfind
    have hmem := List.mem_of_find?_eq_some hfind
    rw [Bool.and_eq_true] at hpred
    obtain ⟨c, y, hec, hy, hyc⟩ := (pygt_true_iff _ _).mp hpred.1
    cases hbcv : (mk_state kd).bestcorr with
    | none => rw [hbcv] at hy; exact absurd hy (by simp [pymul])
    | some b =>
        rw [hbcv] at hy
        have hyb : y = b * (9 / 10) := by
          simpa [pymul] using hy.symm
        refine ⟨b, c, rfl, hec, hyb ▸ hyc, ?_⟩
        -- c ≤ b from dominance of the scan winner, and c ≠ b from the != test
        have hcb : c ≤ b := by
          cases kd with
          | nil => simp at hmem
          | cons h t =>
              have hdom := pymax_dom t h e hmem
              have hwv : (t.foldl pymaxStep h).2 = some b := by
                have : (dict_max (h :: t)).2 = some b := by rw [← hbc, hbcv]
                exact this
              rw [hec, hwv] at hdom
              simp only [pygt, decide_eq_false_iff_not] at hdom
              exact le_of_not_lt hdom
        have hcne : c ≠ b := by
          have := hpred.2
          rw [hec, hbcv] at this
          simpa [pyne] using this
        exact lt_of_le_of_ne hcb hcne
  constructor
  · intro hs
    cases hfind : find_alternative_key kd ((mk_state kd).bestcorr) with
    | none => rw [halt, hfind] at hs; simp at hs
    | some e =>
        obtain ⟨b, c, hb, hc, h1, h2⟩ := hmain e hfind
        refine ⟨b, c, hb, ?_, h1, h2⟩
        rw [halt2, hfind, Option.map_some', hc]
  · intro b hb hb0
    cases hfind : find_alternative_key kd ((mk_state kd).bestcorr) with
    | none => rw [halt, halt2, hfind]; exact ⟨rfl, rfl⟩
    | some e =>
        obtain ⟨b', c, hb', hc, h1, h2⟩ := hmain e hfind
        rw [hb] at hb'
        have hbb : b' = b := by
          injection hb'.symm
        rw [hbb] at h1 h2
        exfalso
        nlinarith

/-- A concrete candidate dictionary exhibiting an alternate key. -/
def altDemoDict : List (String × PyVal) :=
  [("C major", some 1), ("C minor", some (19 / 20))]

theorem altDemoDict_altkey : (mk_state altDemoDict).altkey = some "C minor" := by
  show (Option.map Prod.fst (find_alternative_key altDemoDict
    ((List.lookup (dict_max altDemoDict).1 altDemoDict).getD none))) = some "C minor"
  have hmax : dict_max altDemoDict = ("C major", some 1) := by
    show pymaxStep ("C major", some 1) ("C minor", some (19 / 20)) = ("C major", some 1)
    rw [pymaxStep]
    norm_num [pygt]
  rw [hmax]
  have hlook : List.lookup "C major" altDemoDict = some (some 1) := by
    rw [altDemoDict, List.lookup_cons]
    simp
  rw [hlook]
  show Option.map Prod.fst (find_alternative_key altDemoDict (some 1)) = some "C minor"
  rw [find_alternative_key, altDemoDict]
  rw [List.find?_cons_of_neg, List.find?_cons_of_pos]
  · rfl
  · show (pygt (some (19 / 20)) (pymul (some 1) (9 / 10)) &&
      pyne (some (19 / 20)) (some 1)) = true
    norm_num [pygt, pyne, pymul]
  · show ¬(pygt (some 1) (pymul (some 1) (9 / 10)) && pyne (some 1) (some 1)) = true
    norm_num [pygt, pyne, pymul]

/-- Witness for C9: a dictionary where an alternate is actually reported. -/
theorem alternate_strictly_between_witness :
    ((altDemoDict.map Prod.fst).Nodup) ∧
    (∃ b c : ℚ, (mk_state altDemoDict).bestcorr = some b ∧
      (mk_state altDemoDict).altbestcorr = some (some c) ∧
      b * (9 / 10) < c ∧ c < b) := by
  have hnd : (altDemoDict.map Prod.fst).Nodup := by decide
  have hs : (mk_state altDemoDict).altkey.isSome = true := by
    rw [altDemoDict_altkey]; rfl
  exact ⟨hnd, (alternate_strictly_between altDemoDict hnd).1 hs⟩

theorem bestcorr_some (chroma : Fin 12 → ℚ) (hvar : ssum chroma chroma ≠ 0) :
    ∃ b : ℚ, (Tonal_Fragment.init chroma).bestcorr = some b := by
  have hnd : ((compute_key_correlations chroma).map Prod.fst).Nodup := by
    rw [kd_keys]; exact keyNames_nodup
  have hbc := bestcorr_eq_winner (compute_key_correlations chroma) hnd
  have hsome : ((dict_max (compute_key_correlations chroma)).2).isSome = true := by
    cases hkd : compute_key_correlations chroma with
    | nil =>
        have h24 := kd_length chroma
        rw [hkd] at h24
        simp at h24
    | cons h t =>
        refine pymax_isSome t h ?_
        intro e he
        obtain ⟨z, _, hv⟩ := kd_val_some chroma hvar e (by rw [hkd]; exact he)
        rw [hv]; rfl
  obtain ⟨b, hb⟩ := Option.isSome_iff_exists.mp hsome
  exact ⟨b, by rw [show (Tonal_Fragment.init chroma).bestcorr =
    (mk_state (compute_key_correlations chroma)).bestcorr from rfl, hbc, hb]⟩

theorem strContains_majorName : ∀ r : Fin 12, strContains (majorName r) "major" = true := by
  decide

theorem pySplit_majorName : ∀ r : Fin 12, pySplitFirst (majorName r) = PITCHES.getD r.val "" := by
  decide

theorem indexOf_pitches : ∀ r : Fin 12, List.indexOf (PITCHES.getD r.val "") PITCHES = r.val := by
  decide

/-- The relative-minor root index `(primaryRoot - 3) mod 12` (Python integer
arithmetic, so the result is non-negative). -/
def relMinorIdx (r : Fin 12) : Fin 12 :=
  ⟨(((r.val : ℤ) - 3) % 12).toNat, by
    have h12 := r.isLt
    omega⟩

/-- C4: when the stored primary key is major with root `r`,
`get_key_with_context` with `prefer_minor` computes the relative minor at
root `(r - 3) mod 12`, and returns the relative minor's name and correlation
exactly when that correlation strictly exceeds `bestcorr * threshold`;
otherwise it returns the primary key and correlation unchanged. -/
theorem relative_minor_preference (chroma : Fin 12 → ℚ) (thr : ℚ) (r : Fin 12)
    (hvar : ssum chroma chroma ≠ 0)
    (hkey : (Tonal_Fragment.init chroma).key = majorName r) :
    ∃ mc b : ℚ,
      List.lookup (minorName (relMinorIdx r)) (Tonal_Fragment.init chroma).key_dict =
        some (some mc) ∧
      (Tonal_Fragment.init chroma).bestcorr = some b ∧
      (get_key_with_context (Tonal_Fragment.init chroma) true thr).1 =
        if b * thr < mc then (minorName (relMinorIdx r), some mc)
        else (majorName r, some b) := by
  have hnd : ((compute_key_correlations chroma).map Prod.fst).Nodup := by
    rw [kd_keys]; exact keyNames_nodup
  have hmem : (minorName (relMinorIdx r),
      py_round3 (corrcoef MIN_PROFILE (key_test chroma (relMinorIdx r)))) ∈
      compute_key_correlations chroma := by
    rw [compute_key_correlations]
    exact List.mem_append_right _
      (List.mem_map.mpr ⟨relMinorIdx r, List.mem_finRange _, rfl⟩)
  obtain ⟨z, _, hv⟩ := kd_val_some chroma hvar _ hmem
  simp only at hv
  have hlook := lookup_eq_of_mem_nodup _ _ hnd hmem
  simp only at hlook
  rw [hv] at hlook
  have hlook' : List.lookup (minorName (relMinorIdx r))
      (Tonal_Fragment.init chroma).key_dict = some (some (round3 z)) := hlook
  obtain ⟨b, hb⟩ := bestcorr_some chroma hvar
  refine ⟨round3 z, b, hlook', hb, ?_⟩
  simp only [get_key_with_context, hkey, hb, Bool.true_and, strContains_majorName,
    if_true, pySplit_majorName, indexOf_pitches]
  have hname : PITCHES.getD (((r.val : ℤ) - 3) % 12).toNat "" ++ " minor" =
      minorName (relMinorIdx r) := rfl
  rw [hname, hlook']
  show (if pygt (some (round3 z)) (pymul (some b) thr) = true
      then ((minorName (relMinorIdx r), some (round3 z)), Tonal_Fragment.init chroma)
      else ((majorName r, some b), Tonal_Fragment.init chroma)).1 =
    if b * thr < round3 z then (minorName (relMinorIdx r), some (round3 z))
    else (majorName r, some b)
  by_cases hc : b * thr < round3 z <;> simp [pygt, pymul, hc]

/-- Witness for C4: the MAJOR-template chroma, whose primary is "C major". -/
theorem relative_minor_preference_witness :
    ssum MAJ_PROFILE MAJ_PROFILE ≠ 0 ∧
    (Tonal_Fragment.init MAJ_PROFILE).key = majorName 0 ∧
    (∃ mc b : ℚ,
      List.lookup (minorName (relMinorIdx 0)) (Tonal_Fragment.init MAJ_PROFILE).key_dict =
        some (some mc) ∧
      (Tonal_Fragment.init MAJ_PROFILE).bestcorr = some b ∧
      (get_key_with_context (Tonal_Fragment.init MAJ_PROFILE) true (9 / 10)).1 =
        if b * (9 / 10) < mc then (minorName (relMinorIdx 0), some mc)
        else (majorName 0, some b)) := by
  have h2 : (Tonal_Fragment.init MAJ_PROFILE).key = majorName 0 := init_MAJ_props.1
  exact ⟨ssum_MAJ_ne, h2,
    relative_minor_preference MAJ_PROFILE (9 / 10) 0 ssum_MAJ_ne h2⟩
